import Mathlib

/-!
Verification development for the leelo client access pipeline.

The definitions below are shallow embeddings of the TypeScript source:
  - `RateLimiter`, `CompoundRateLimiter`  from src/types/mcp.types.ts
  - `CacheManager` (entries, sizeUsed, eviction, TTL)  from src/core/auth.ts
  - `AuthManager.getAccessToken` / token refresh  from src/core/auth.ts
  - `RedditAPI.calculateBackoff` and the per-attempt response
    classification of `RedditAPI.getImpl`  from src/services/reddit-api.ts

JavaScript machine integers and `Date.now()` timestamps are modelled as
`Nat` (all quantities involved are non-negative in every reachable state);
fractional arithmetic (backoff jitter, eviction scores) is modelled as `ℚ`;
thrown exceptions are modelled as `Except`/`Option` results; mutation is
modelled by explicit state passing.  Each operation takes the value of
`Date.now()` at the call as an explicit `now` argument; traces of calls
carry non-decreasing times, reflecting a monotone clock.
-/

namespace Leelo

/-! ### RateLimiter (src/types/mcp.types.ts) -/

/-- State of a `RateLimiter`: configured `limit` and `window` (ms) and the
mutable array `requests` of recorded timestamps. -/
structure RateLimiter where
  limit : Nat
  window : Nat
  requests : List Nat
deriving Repr, DecidableEq

/-- `cleanup()`: drop every recorded timestamp `t` with `now - t >= window`.
(JS keeps `t` iff `now - timestamp < this.window`; with a monotone clock all
recorded timestamps satisfy `t <= now`, where natural subtraction agrees
with JS number subtraction.) -/
def RateLimiter.cleanup (now : Nat) (rl : RateLimiter) : RateLimiter :=
  { rl with requests := rl.requests.filter (fun t => decide (now - t < rl.window)) }

/-- `canMakeRequest()`: cleanup, then report whether the window has room.
Returns the answer together with the state mutated by the cleanup. -/
def RateLimiter.canMakeRequest (now : Nat) (rl : RateLimiter) : Bool × RateLimiter :=
  let rl2 := rl.cleanup now
  (decide (rl2.requests.length < rl2.limit), rl2)

/-- `recordRequest()`: cleanup, throw if the pruned window is still full,
else append `now`.  The pair carries the post-call state (the cleanup
mutation persists even when the call throws) and the thrown message. -/
def RateLimiter.recordRequest (now : Nat) (rl : RateLimiter) : RateLimiter × Option String :=
  let rl2 := rl.cleanup now
  if rl2.limit ≤ rl2.requests.length then
    (rl2, some "Rate limit exceeded")
  else
    ({ rl2 with requests := rl2.requests ++ [now] }, none)

/-- Operations a caller may perform on a `RateLimiter` in a trace. -/
inductive RLOp where
  | canMake
  | record
deriving Repr, DecidableEq

/-- One trace step: run the operation at the given time; the second
component lists the timestamp admitted by this step (empty if none). -/
def RateLimiter.step (rl : RateLimiter) : Nat × RLOp → RateLimiter × List Nat
  | (now, .canMake) => ((rl.canMakeRequest now).2, [])
  | (now, .record) =>
    let r := rl.recordRequest now
    (r.1, if r.2.isSome then [] else [now])

/-- Run a whole trace of timed operations, collecting the admitted
timestamps in order. -/
def RateLimiter.runTrace (rl : RateLimiter) : List (Nat × RLOp) → RateLimiter × List Nat
  | [] => (rl, [])
  | op :: rest =>
    let s := rl.step op
    let r := s.1.runTrace rest
    (r.1, s.2 ++ r.2)

/-- A timestamp `t` lies in the trailing interval of length `W` ending at
`T` (that is, `T - W < t ≤ T`, expressed without truncated subtraction). -/
def inWindow (W T t : Nat) : Bool :=
  decide (t ≤ T ∧ T - t < W)

/-! ### CompoundRateLimiter (src/types/mcp.types.ts) -/

/-- State of a `CompoundRateLimiter`: its named member limiters in
insertion order (a JS `Map` iterates in insertion order). -/
structure CompoundRateLimiter where
  limiters : List (String × RateLimiter)
deriving Repr, DecidableEq

/-- The member loop of `CompoundRateLimiter.recordRequest`: call
`recordRequest` on each member in order; the first member that throws
aborts the loop and its error is rethrown with added context, leaving the
remaining members untouched. -/
def recordAllMembers (now : Nat) :
    List (String × RateLimiter) → List (String × RateLimiter) × Option String
  | [] => ([], none)
  | (n, rl) :: rest =>
    let r := rl.recordRequest now
    match r.2 with
    | some e => ((n, r.1) :: rest, some ("Compound rate limit exceeded: " ++ e))
    | none =>
      let rest2 := recordAllMembers now rest
      ((n, r.1) :: rest2.1, rest2.2)

/-- `CompoundRateLimiter.recordRequest()`: no-op when no limiters are
configured, else run the member loop. -/
def CompoundRateLimiter.recordRequest (now : Nat) (c : CompoundRateLimiter) :
    CompoundRateLimiter × Option String :=
  if c.limiters.isEmpty then (c, none)
  else
    let r := recordAllMembers now c.limiters
    (⟨r.1⟩, r.2)

/-! ### CacheManager (src/core/auth.ts) -/

/-- A cache entry: `{data, timestamp, size, hits, expiresAt}`. -/
structure CacheEntry (V : Type) where
  data : V
  timestamp : Nat
  size : Nat
  hits : Nat
  expiresAt : Nat
deriving Repr, DecidableEq

/-- Cache configuration.  The value type `V` is abstract; `estimateSize`
stands for the deterministic `JSON.stringify(data).length * 2` estimate of
the source (whose exact byte count is irrelevant to the claims). -/
structure CacheConfig (V : Type) where
  maxSize : Nat
  defaultTTL : Nat
  estimateSize : V → Nat

/-- The mutable state of a `CacheManager`: the `Map` of entries in
insertion order plus the running `sizeUsed` counter. -/
structure CacheState (V : Type) where
  entries : List (String × CacheEntry V)
  sizeUsed : Nat
deriving Repr, DecidableEq

/-- The `ttlByPattern` table of the constructor.  Each of the six regexes
is of the shape `pre.*suf` anchored on both sides (with `suf` empty for the
unanchored-tail ones), represented by its literal prefix and suffix. -/
def ttlByPattern : List ((String × String) × Nat) :=
  [ (("subreddit:", ":hot"), 5 * 60 * 1000),
    (("subreddit:", ":new"), 2 * 60 * 1000),
    (("subreddit:", ":top"), 30 * 60 * 1000),
    (("post:", ""), 10 * 60 * 1000),
    (("user:", ""), 15 * 60 * 1000),
    (("search:", ""), 10 * 60 * 1000) ]

/-- A key matches the pattern `pre.*suf` (anchored) iff it starts with
`pre` and what remains after `pre` ends with `suf`. -/
def matchesPattern (p : String × String) (key : String) : Bool :=
  key.startsWith p.1 && (key.drop p.1.length).endsWith p.2

/-- First matching pattern TTL, scanning `ttlByPattern` in order. -/
def patternTTL (key : String) : Option Nat :=
  (ttlByPattern.find? (fun p => matchesPattern p.1 key)).map (fun p => p.2)

/-- TTL resolution in `set`: a defined positive custom TTL wins, else the
first matching pattern, else the default. -/
def resolveTTL (defaultTTL : Nat) (customTTL : Option Nat) (key : String) : Nat :=
  match customTTL with
  | some t => if 0 < t then t else (patternTTL key).getD defaultTTL
  | none => (patternTTL key).getD defaultTTL

/-- `Map.get`-style lookup: first entry stored under `key`. -/
def CacheState.findEntry {V : Type} (key : String) (st : CacheState V) : Option (CacheEntry V) :=
  (st.entries.find? (fun x => x.1 == key)).map (fun x => x.2)

/-- `delete(key)`: remove the entry (if present) and subtract its size from
`sizeUsed`; reports whether an entry was removed. -/
def CacheState.delete {V : Type} (key : String) (st : CacheState V) : Bool × CacheState V :=
  match st.findEntry key with
  | none => (false, st)
  | some e => (true, ⟨st.entries.eraseP (fun x => x.1 == key), st.sizeUsed - e.size⟩)

/-- The `entry.hits++` of a cache hit. -/
def CacheState.bumpHits {V : Type} (key : String) (st : CacheState V) : CacheState V :=
  ⟨st.entries.map (fun x => if x.1 == key then (x.1, { x.2 with hits := x.2.hits + 1 }) else x),
   st.sizeUsed⟩

/-- `get(key)`: miss on absent key; lazily delete and miss when
`now >= expiresAt`; else bump the hit counter and return the data. -/
def CacheState.get {V : Type} (now : Nat) (key : String) (st : CacheState V) :
    Option V × CacheState V :=
  match st.findEntry key with
  | none => (none, st)
  | some e =>
    if e.expiresAt ≤ now then (none, (st.delete key).2)
    else (some e.data, st.bumpHits key)

/-- `has(key)`: like `get` (including the lazy expiry delete) but without
touching the hit counter. -/
def CacheState.hasKey {V : Type} (now : Nat) (key : String) (st : CacheState V) :
    Bool × CacheState V :=
  match st.findEntry key with
  | none => (false, st)
  | some e =>
    if e.expiresAt ≤ now then (false, (st.delete key).2)
    else (true, st)

/-- The eviction score of `evictLRU`: `hits / (age / 1000)` — hits per
second — where the age in milliseconds is clamped below by 1.  For
timestamps not after `now`, natural subtraction plus the clamp agrees with
the JS `Math.max(1, Date.now() - entry.timestamp)`. -/
def evictScore {V : Type} (now : Nat) (e : CacheEntry V) : ℚ :=
  (e.hits : ℚ) / (((max 1 (now - e.timestamp) : Nat) : ℚ) / 1000)

/-- The selection fold of `evictLRU`: starting from `minScore = Infinity`
(`none`), keep the first key whose score is strictly below the running
minimum. -/
def evictPick {V : Type} (now : Nat) (l : List (String × CacheEntry V)) : Option String :=
  (l.foldl (fun acc kv =>
      match acc with
      | none => some (kv.1, evictScore now kv.2)
      | some km =>
        if evictScore now kv.2 < km.2 then some (kv.1, evictScore now kv.2) else some km)
    none).map (fun km => km.1)

/-- `evictLRU()`: delete the entry picked by the score fold.  A falsy
victim key (the empty string) fails the `if (lruKey)` guard and nothing is
deleted. -/
def CacheState.evictLRU {V : Type} (now : Nat) (st : CacheState V) : CacheState V :=
  match evictPick now st.entries with
  | none => st
  | some k => if k = "" then st else (st.delete k).2

/-- The eviction loop of `set`: while the new entry does not fit and the
store is non-empty, run `evictLRU`.  An iteration that fails to shrink the
store (an empty-string victim key) would loop forever in the source; that
divergence is modelled as `none`.  The fuel argument is an upper bound on
the remaining iterations, consumed one entry per step. -/
def evictLoopF {V : Type} (cfg : CacheConfig V) (now size : Nat) :
    Nat → CacheState V → Option (CacheState V)
  | 0, st =>
    if cfg.maxSize < st.sizeUsed + size && !st.entries.isEmpty then none else some st
  | fuel + 1, st =>
    if cfg.maxSize < st.sizeUsed + size && !st.entries.isEmpty then
      let st2 := st.evictLRU now
      if st2.entries.length < st.entries.length then evictLoopF cfg now size fuel st2
      else none
    else some st

/-- `set(key, data, customTTL?)`: skip outright when the estimated size
exceeds capacity; else evict until there is room (or the store is empty),
remove any previous entry for the key (via the mutating `has` check),
resolve the TTL and append the fresh entry, adding its size to `sizeUsed`.
`none` models the non-terminating eviction loop. -/
def CacheState.set {V : Type} (cfg : CacheConfig V) (now : Nat) (key : String) (data : V)
    (customTTL : Option Nat) (st : CacheState V) : Option (CacheState V) :=
  let size := cfg.estimateSize data
  if cfg.maxSize < size then some st
  else
    match evictLoopF cfg now size st.entries.length st with
    | none => none
    | some st2 =>
      let hk := st2.hasKey now key
      let st3 := if hk.1 then ((hk.2).delete key).2 else hk.2
      some ⟨st3.entries ++ [(key, ⟨data, now, size, 0, now + resolveTTL cfg.defaultTTL customTTL key⟩)],
            st3.sizeUsed + size⟩

/-- `clear()`: drop everything and reset the counter. -/
def CacheState.clearAll {V : Type} (_st : CacheState V) : CacheState V := ⟨[], 0⟩

/-- The periodic `cleanup()` sweep: collect the keys whose entries have
expired, then delete each. -/
def CacheState.sweep {V : Type} (now : Nat) (st : CacheState V) : CacheState V :=
  ((st.entries.filter (fun x => decide (x.2.expiresAt ≤ now))).map (fun x => x.1)).foldl
    (fun s k => (s.delete k).2) st

/-- Cache operations a caller may perform, for operation traces. -/
inductive CacheOp (V : Type) where
  | get (key : String)
  | set (key : String) (data : V) (customTTL : Option Nat)
  | has (key : String)
  | del (key : String)
  | clear
  | sweep

/-- Run a sequence of timed cache operations; `none` once any `set`
diverges in its eviction loop (the source would hang there). -/
def runCache {V : Type} (cfg : CacheConfig V) :
    CacheState V → List (Nat × CacheOp V) → Option (CacheState V)
  | st, [] => some st
  | st, (now, op) :: rest =>
    match op with
    | .get key => runCache cfg (st.get now key).2 rest
    | .set key data ttl =>
      match st.set cfg now key data ttl with
      | none => none
      | some st2 => runCache cfg st2 rest
    | .has key => runCache cfg (st.hasKey now key).2 rest
    | .del key => runCache cfg (st.delete key).2 rest
    | .clear => runCache cfg st.clearAll rest
    | .sweep => runCache cfg (st.sweep now) rest

/-- Total estimated size of all stored entries (live or expired). -/
def totalSizeSum {V : Type} (st : CacheState V) : Nat :=
  (st.entries.map (fun x => x.2.size)).sum

/-- Modelled from the spec wording of the size invariant: the total
estimated size of exactly the live entries, those with `expiresAt > now`. -/
def liveSizeSum {V : Type} (now : Nat) (st : CacheState V) : Nat :=
  ((st.entries.filter (fun x => decide (now < x.2.expiresAt))).map (fun x => x.2.size)).sum

/-- Modelled from the spec wording of the eviction policy: score
`hitCount / max(1, ageSeconds)` with the age in whole seconds. -/
def specScore {V : Type} (now : Nat) (e : CacheEntry V) : ℚ :=
  (e.hits : ℚ) / ((max 1 ((now - e.timestamp) / 1000) : Nat) : ℚ)

/-- The structural invariant of a `CacheManager` state: keys are unique,
`sizeUsed` equals the total size of all stored entries, and `sizeUsed`
never exceeds the configured capacity. -/
def CacheInv {V : Type} (cfg : CacheConfig V) (st : CacheState V) : Prop :=
  (st.entries.map Prod.fst).Nodup ∧
  st.sizeUsed = totalSizeSum st ∧
  st.sizeUsed ≤ cfg.maxSize

/-! ### CacheManager.createKey (src/core/auth.ts) -/

/-- The character sanitization of `createKey`: anything outside
`[a-z0-9_-]` becomes an underscore. -/
def keyChar (c : Char) : Char :=
  if (('a' ≤ c ∧ c ≤ 'z') ∨ ('0' ≤ c ∧ c ≤ '9') ∨ c = '_' ∨ c = '-') then c else '_'

/-- Per-part sanitization: `str.replace(/[^a-z0-9_-]/g, "_")`. -/
def sanitizePart (s : String) : String := s.map keyChar

/-- Two's-complement wrap to a signed 32-bit value, the effect of JS `|0`. -/
def wrap32 (x : Int) : Int := (x + 2 ^ 31) % 2 ^ 32 - 2 ^ 31

/-- One step of the truncation hash: `((acc << 5) - acc + charCode) | 0`
(the shift itself is a 32-bit operation in JS). -/
def hashStep (acc : Int) (c : Char) : Int :=
  wrap32 (wrap32 (acc * 32) - acc + (c.toNat : Int))

/-- The reduce-based hash over the characters of the full key. -/
def hashKey (s : String) : Int := s.foldl hashStep 0

/-- A base-36 digit: `0-9` then `a-z`. -/
def digit36 (d : Nat) : Char :=
  if d < 10 then Char.ofNat (48 + d) else Char.ofNat (87 + d)

/-- Digit accumulation for base 36, with enough fuel to cover every digit
of the number (one division by 36 per step). -/
def natToBase36Aux : Nat → Nat → List Char → List Char
  | 0, _, acc => acc
  | fuel + 1, n, acc =>
    if n = 0 then acc
    else natToBase36Aux fuel (n / 36) (digit36 (n % 36) :: acc)

/-- Base-36 rendering of a natural number. -/
def natToBase36 (n : Nat) : String :=
  if n = 0 then "0" else (natToBase36Aux n n []).asString

/-- JS `Number.prototype.toString(36)` for integers: lowercase base-36
digits with a leading minus for negatives. -/
def intToBase36 (x : Int) : String :=
  if x < 0 then "-" ++ natToBase36 x.natAbs else natToBase36 x.toNat

/-- The element mapper of `createKey`: lowercase, trim, throw on an empty
result, else sanitize.  JS `Array.prototype.map` runs left to right and the
first throw aborts the whole call, which the recursion mirrors. -/
def mapParts : List String → Except String (List String)
  | [] => Except.ok []
  | p :: rest =>
    let str := p.toLower.trim
    if str.isEmpty then Except.error "Cache key parts cannot be empty strings"
    else
      match mapParts rest with
      | Except.error e => Except.error e
      | Except.ok rs => Except.ok (sanitizePart str :: rs)

/-- `CacheManager.createKey(...parts)`: drop undefined/null parts as
`none` (numbers and booleans arrive already converted by `String(p)`,
which never produces an empty string for them), throw when nothing
remains, map each part, join with colons, and cap the length at 256 by
truncating to 245 characters plus an underscore and the base-36 hash. -/
def createKey (parts : List (Option String)) : Except String String :=
  let validParts := parts.filterMap id
  if validParts.isEmpty then Except.error "Cache key must have at least one part"
  else
    match mapParts validParts with
    | Except.error e => Except.error e
    | Except.ok stringParts =>
      let key := String.intercalate ":" stringParts
      Except.ok (if 256 < key.length then
          (key.take 245) ++ "_" ++ intToBase36 (hashKey key)
        else key)

/-! ### AuthManager token lifecycle (src/core/auth.ts) -/

/-- The in-memory `AuthConfig` (the `refreshToken`/`userAgent` fields play
no part in the claims under study). -/
structure AuthConfig where
  clientId : String
  accessToken : Option String
  expiresAt : Option Int
  scope : Option String
  deviceId : Option String
deriving Repr, DecidableEq

/-- The raw JSON body of a token-endpoint response before schema
validation: every field may be absent. -/
structure RawTokenResponse where
  access_token : Option String
  token_type : Option String
  expires_in : Option Int
  scope : Option String
deriving Repr, DecidableEq

/-- A token response that passed the schema check. -/
structure TokenResponse where
  access_token : String
  token_type : String
  expires_in : Int
  scope : String
deriving Repr, DecidableEq

/-- The Zod schema of the OAuth token response: `access_token` and
`token_type` present and non-empty, `expires_in` present and positive,
`scope` a present string (extra fields pass through). -/
def validateTokenResponse (r : RawTokenResponse) : Except String TokenResponse :=
  match r.access_token, r.token_type, r.expires_in, r.scope with
  | some a, some t, some e, some sc =>
    if a = "" then Except.error "access_token must not be empty"
    else if t = "" then Except.error "token_type must not be empty"
    else if e ≤ 0 then Except.error "expires_in must be positive"
    else Except.ok ⟨a, t, e, sc⟩
  | _, _, _, _ => Except.error "Invalid OAuth token response format"

/-- JS truthiness of `!this.config.accessToken`: undefined and the empty
string are both falsy. -/
def tokenFalsy : Option String → Bool
  | none => true
  | some t => t == ""

/-- `config.accessToken || null`: an empty-string token collapses to null. -/
def jsTokenOrNull : Option String → Option String
  | none => none
  | some t => if t == "" then none else some t

/-- `isTokenExpired()`: expired when no expiry is set or it is
non-positive, or once `now` reaches `expiresAt` minus the 10 s clock-drift
buffer. -/
def isTokenExpired (now : Int) (cfg : AuthConfig) : Bool :=
  match cfg.expiresAt with
  | none => true
  | some e => if e ≤ 0 then true else decide (e - 10000 ≤ now)

/-- `doRefreshAccessToken()`: fail without a client ID; generate and store
a device id on first use; `fetchResult` stands for the network outcome
(`error` covers a non-ok response, a fetch failure and a JSON parse
failure); a response failing the shape check fails the refresh; on success
the token, the expiry `now + expires_in * 1000` and the scope are stored
and persisted.  Returns the config after the call (on failure only the
device id may have changed) and the thrown error if any. -/
def doRefreshAccessToken (now : Int) (freshDeviceId : String)
    (fetchResult : Except String RawTokenResponse) (cfg : AuthConfig) :
    AuthConfig × Except String Unit :=
  if cfg.clientId == "" then (cfg, Except.error "No client ID configured")
  else
    let cfg1 := match cfg.deviceId with
      | none => { cfg with deviceId := some freshDeviceId }
      | some _ => cfg
    match fetchResult with
    | Except.error e => (cfg1, Except.error ("Failed to refresh access token: " ++ e))
    | Except.ok raw =>
      match validateTokenResponse raw with
      | Except.error e => (cfg1, Except.error ("Failed to refresh access token: " ++ e))
      | Except.ok data =>
        ({ cfg1 with
            accessToken := some data.access_token,
            expiresAt := some (now + data.expires_in * 1000),
            scope := some data.scope }, Except.ok ())

/-- `getAccessToken()` for a single caller with no refresh already in
flight: a null config short-circuits to a successful null; a falsy or
expiring token triggers one refresh whose failure propagates; the final
result is `config.accessToken || null`. -/
def getAccessToken (now : Int) (freshDeviceId : String)
    (fetchResult : Except String RawTokenResponse) :
    Option AuthConfig → Except String (Option String) × Option AuthConfig
  | none => (Except.ok none, none)
  | some cfg =>
    if tokenFalsy cfg.accessToken || isTokenExpired now cfg then
      let r := doRefreshAccessToken now freshDeviceId fetchResult cfg
      match r.2 with
      | Except.error e => (Except.error e, some r.1)
      | Except.ok _ => (Except.ok (jsTokenOrNull r.1.accessToken), some r.1)
    else
      (Except.ok (jsTokenOrNull cfg.accessToken), some cfg)

/-! ### Single-flight refresh lock (src/core/auth.ts) -/

/-- Abstract state of the `tokenRefreshPromise` lock: the id of the
in-flight refresh if any, how many token-endpoint calls have been started,
and which refresh each awaiting caller joined.  JS executes every
synchronous prefix atomically, so a `getAccessToken()` call that finds no
valid token either joins the in-flight refresh or installs a new one in a
single indivisible step. -/
structure SingleFlight where
  inFlight : Option Nat
  networkCalls : Nat
  waiters : List (Nat × Nat)
  nextId : Nat
deriving Repr, DecidableEq

/-- A caller reaching the refresh branch of `getAccessToken()`: await the
refresh already underway if there is one, else start one (exactly one new
token-endpoint call) and await it. -/
def arrive (caller : Nat) (s : SingleFlight) : SingleFlight :=
  match s.inFlight with
  | some rid => { s with waiters := s.waiters ++ [(caller, rid)] }
  | none =>
    { inFlight := some s.nextId,
      networkCalls := s.networkCalls + 1,
      waiters := s.waiters ++ [(caller, s.nextId)],
      nextId := s.nextId + 1 }

/-- The in-flight refresh settles with `outcome` (a token or a failure):
every caller awaiting that refresh observes exactly this outcome, and the
`finally` clears the marker whether the refresh succeeded or failed. -/
def settle (outcome : Except String String) (s : SingleFlight) :
    SingleFlight × List (Nat × Except String String) :=
  match s.inFlight with
  | none => (s, [])
  | some rid =>
    ({ s with inFlight := none,
              waiters := s.waiters.filter (fun w => !(w.2 == rid)) },
     (s.waiters.filter (fun w => w.2 == rid)).map (fun w => (w.1, outcome)))

/-- The manager starts idle: no refresh in flight, no calls made. -/
def idleFlight : SingleFlight := ⟨none, 0, [], 0⟩

/-! ### RedditAPI backoff and response classification (src/services/reddit-api.ts) -/

def MAX_BACKOFF_MS : ℚ := 30000

def INITIAL_BACKOFF_MS : ℚ := 100

def BACKOFF_MULTIPLIER : ℚ := 2

/-- JS `Math.round`: round half towards positive infinity. -/
def jsRound (x : ℚ) : Int := Int.floor (x + 1 / 2)

/-- `calculateBackoff(retriesLeft)` with the `Math.random()` draw as the
explicit parameter `rand` (in `[0, 1)`): exponential base
`INITIAL * MULTIPLIER ^ (maxRetries - retriesLeft)` with the hard-coded
`maxRetries = 2`, capped at the ceiling, then ±20% jitter and a clamp at
zero. -/
def calculateBackoff (retriesLeft : Int) (rand : ℚ) : Int :=
  let maxRetries : Int := 2
  let retriesUsed := maxRetries - retriesLeft
  let baseBackoff := INITIAL_BACKOFF_MS * BACKOFF_MULTIPLIER ^ retriesUsed
  let cappedBackoff := min baseBackoff MAX_BACKOFF_MS
  let jitter := cappedBackoff * (1 / 5) * (rand * 2 - 1)
  jsRound (max 0 (cappedBackoff + jitter))

/-- An HTTP response as far as the classification is concerned (the
`Retry-After` header only scales the delay of a retry that is already
decided, so it does not appear here). -/
structure HttpResponse where
  status : Nat
  contentType : Option String
deriving Repr, DecidableEq

/-- Fetch-level failures of one attempt (`error.name` / `error.code`). -/
inductive NetError where
  | abortTimeout
  | connReset
  | dnsNotFound
  | connRefused
  | connTimeout
  | sslLeafSignature
  | otherFailure
deriving Repr, DecidableEq

/-- One network attempt either yields an HTTP response or throws. -/
inductive FetchEvent where
  | resp (r : HttpResponse)
  | err (e : NetError)
deriving Repr, DecidableEq

/-- The failure classifications `getImpl` surfaces when it gives up. -/
inductive ApiFailure where
  | notFound
  | forbidden
  | rateLimited
  | unavailable
  | apiError (status : Nat)
  | htmlResponse
  | authFailed
  | timeoutExhausted
  | connTimeoutExhausted
  | dnsBlocked
  | refused
  | sslError
  | passthrough
deriving Repr, DecidableEq

/-- `Response.ok`: status in `[200, 300)`. -/
def responseOk (status : Nat) : Bool :=
  decide (200 ≤ status ∧ status < 300)

/-- Characters-level trim, the effect of JS `String.prototype.trim`. -/
def trimChars (l : List Char) : List Char :=
  ((l.dropWhile Char.isWhitespace).reverse.dropWhile Char.isWhitespace).reverse

/-- The HTML content-type check of `getImpl`: lowercase, take what
precedes the first semicolon, trim, and compare against the two HTML media
types (character-level, since only ASCII media types are compared). -/
def isHtmlContentType : Option String → Bool
  | none => false
  | some ct =>
    let n := String.mk (trimChars ((ct.data.map Char.toLower).takeWhile (fun c => c != ';')))
    n == "text/html" || n == "application/xhtml+xml"

/-- What one `getImpl` attempt decides to do with its fetch outcome,
following the branch order of the source (the successful
`rateLimiter.recordRequest()` after the fetch is orthogonal to the
classification). -/
inductive AttemptStep where
  | success
  | refreshRetry
  | backoffRetry
  | fatal (f : ApiFailure)
deriving Repr, DecidableEq

/-- The per-attempt classification of `getImpl`: 401-with-auth refreshes
and retries; 503/429 with budget left backs off and retries; 404, 403,
other non-ok statuses and HTML payloads are fatal; thrown timeouts and
resets retry while budget remains; DNS failures, refused connections and
SSL errors are fatal at once. -/
def classifyAttempt (isAuthenticated : Bool) (retries : Nat) : FetchEvent → AttemptStep
  | .resp r =>
    if r.status == 401 && isAuthenticated && decide (0 < retries) then .refreshRetry
    else if !(responseOk r.status) then
      if (r.status == 503 || r.status == 429) && decide (0 < retries) then .backoffRetry
      else if r.status == 404 then .fatal .notFound
      else if r.status == 403 then .fatal .forbidden
      else if r.status == 429 then .fatal .rateLimited
      else if r.status == 503 then .fatal .unavailable
      else .fatal (.apiError r.status)
    else if isHtmlContentType r.contentType then .fatal .htmlResponse
    else .success
  | .err e =>
    match e with
    | .abortTimeout => if 0 < retries then .backoffRetry else .fatal .timeoutExhausted
    | .connReset => if 0 < retries then .backoffRetry else .fatal .passthrough
    | .dnsNotFound => .fatal .dnsBlocked
    | .connRefused => .fatal .refused
    | .connTimeout => if 0 < retries then .backoffRetry else .fatal .connTimeoutExhausted
    | .sslLeafSignature => .fatal .sslError
    | .otherFailure => .fatal .passthrough

/-- The retry recursion of `getImpl`: successive fetch outcomes are
supplied as an oracle list (one per attempt), the 401-path token refresh
outcome as `refreshOk`; the second component counts the network calls
made.  A run never consumes more events than attempts; an exhausted oracle
(impossible on real runs) fails without a call. -/
def getImplRun (refreshOk isAuthenticated : Bool) :
    Nat → List FetchEvent → Except ApiFailure Unit × Nat
  | _, [] => (Except.error ApiFailure.passthrough, 0)
  | retries, ev :: rest =>
    match classifyAttempt isAuthenticated retries ev with
    | .success => (Except.ok (), 1)
    | .fatal f => (Except.error f, 1)
    | .refreshRetry =>
      if refreshOk then
        let r := getImplRun refreshOk isAuthenticated (retries - 1) rest
        (r.1, r.2 + 1)
      else (Except.error ApiFailure.authFailed, 1)
    | .backoffRetry =>
      let r := getImplRun refreshOk isAuthenticated (retries - 1) rest
      (r.1, r.2 + 1)

end Leelo

namespace Leelo

/-! ### Helper lemmas about the rate limiter operations -/

theorem cleanup_limit (now : Nat) (rl : RateLimiter) : (rl.cleanup now).limit = rl.limit := rfl

theorem cleanup_window (now : Nat) (rl : RateLimiter) : (rl.cleanup now).window = rl.window := rfl

theorem recordRequest_of_full (now : Nat) (rl : RateLimiter)
    (h : rl.limit ≤ (rl.cleanup now).requests.length) :
    rl.recordRequest now = (rl.cleanup now, some "Rate limit exceeded") := by
  have h2 : (rl.cleanup now).limit ≤ (rl.cleanup now).requests.length := h
  simp [RateLimiter.recordRequest, RateLimiter.cleanup] at h2 ⊢
  omega

theorem recordRequest_of_room (now : Nat) (rl : RateLimiter)
    (h : (rl.cleanup now).requests.length < rl.limit) :
    rl.recordRequest now =
      ({ rl.cleanup now with requests := (rl.cleanup now).requests ++ [now] }, none) := by
  have h2 : ¬ ((rl.cleanup now).limit ≤ (rl.cleanup now).requests.length) := by
    rw [cleanup_limit]; omega
  simp only [RateLimiter.recordRequest]
  rw [if_neg h2]

theorem countP_le_of_imp {p q : Nat → Bool} (l : List Nat)
    (h : ∀ a ∈ l, p a = true → q a = true) : l.countP p ≤ l.countP q := by
  induction l with
  | nil => simp
  | cons a l ih =>
    simp only [List.countP_cons]
    have ha := h a (by simp)
    have hl : ∀ b ∈ l, p b = true → q b = true := fun b hb => h b (by simp [hb])
    have hih := ih hl
    by_cases hp : p a = true
    · simp [hp, ha hp]; omega
    · simp [hp]; omega

/-! ### Theorems: C1 (sliding-window invariant) -/

theorem runTrace_window_inv (L W : Nat) (hW : 0 < W) :
    ∀ (trace : List (Nat × RLOp)) (tcur : Nat) (A : List Nat) (rl : RateLimiter),
    rl.limit = L → rl.window = W →
    List.Chain' (· ≤ ·) (tcur :: trace.map Prod.fst) →
    (∀ t ∈ A, t ≤ tcur) →
    rl.requests = A.filter (fun t => decide (tcur - t < W)) →
    (∀ T, A.countP (inWindow W T) ≤ L) →
    ∀ T, (A ++ (rl.runTrace trace).2).countP (inWindow W T) ≤ L := by
  intro trace
  induction trace with
  | nil =>
    intro tcur A rl _ _ _ _ _ hbound T
    simpa [RateLimiter.runTrace] using hbound T
  | cons op rest ih =>
    intro tcur A rl hL hWin hchain hle hreq hbound
    obtain ⟨now, o⟩ := op
    have hstep : tcur ≤ now := by
      simp only [List.map_cons, List.chain'_cons] at hchain
      exact hchain.1
    have hchain2 : List.Chain' (· ≤ ·) (now :: rest.map Prod.fst) := by
      simp only [List.map_cons, List.chain'_cons] at hchain
      exact hchain.2
    -- the cleaned request list at time `now` is the filter of A at `now`
    have hclean : (rl.cleanup now).requests = A.filter (fun t => decide (now - t < W)) := by
      simp only [RateLimiter.cleanup, hWin, hreq]
      rw [List.filter_filter]
      refine List.filter_congr ?_
      intro t ht
      have h1 : t ≤ tcur := hle t ht
      by_cases h2 : now - t < W
      · have h3 : tcur - t < W := by omega
        simp [h2, h3]
      · simp [h2]
    have hleA : ∀ t ∈ A, t ≤ now := fun t ht => le_trans (hle t ht) hstep
    cases o with
    | canMake =>
      have hrun : (rl.runTrace ((now, RLOp.canMake) :: rest)).2
          = ((rl.cleanup now).runTrace rest).2 := by
        simp [RateLimiter.runTrace, RateLimiter.step, RateLimiter.canMakeRequest]
      intro T
      rw [hrun]
      exact ih now A (rl.cleanup now) (by rw [cleanup_limit]; exact hL)
        (by rw [cleanup_window]; exact hWin) hchain2 hleA hclean hbound T
    | record =>
      by_cases hfull : rl.limit ≤ (rl.cleanup now).requests.length
      · -- record throws: the state is just the cleanup; nothing admitted
        have hrec := recordRequest_of_full now rl hfull
        have hrun : (rl.runTrace ((now, RLOp.record) :: rest)).2
            = ((rl.cleanup now).runTrace rest).2 := by
          simp [RateLimiter.runTrace, RateLimiter.step, hrec]
        intro T
        rw [hrun]
        exact ih now A (rl.cleanup now) (by rw [cleanup_limit]; exact hL)
          (by rw [cleanup_window]; exact hWin) hchain2 hleA hclean hbound T
      · -- record succeeds: `now` is appended and admitted
        push_neg at hfull
        have hrec := recordRequest_of_room now rl hfull
        have hrun : (rl.runTrace ((now, RLOp.record) :: rest)).2
            = now :: (({ rl.cleanup now with
                requests := (rl.cleanup now).requests ++ [now] } : RateLimiter).runTrace rest).2 := by
          simp [RateLimiter.runTrace, RateLimiter.step, hrec]
        have hreq2 : ({ rl.cleanup now with
              requests := (rl.cleanup now).requests ++ [now] } : RateLimiter).requests
            = (A ++ [now]).filter (fun t => decide (now - t < W)) := by
          show (rl.cleanup now).requests ++ [now] = _
          rw [List.filter_append, hclean]
          have hnow : (fun t => decide (now - t < W)) now = true := by
            simp only [Nat.sub_self, decide_eq_true_eq]
            exact hW
          simp [List.filter_cons, hnow, hW]
        have hbound2 : ∀ T2, (A ++ [now]).countP (inWindow W T2) ≤ L := by
          intro T2
          rw [List.countP_append]
          by_cases hin : inWindow W T2 now = true
          · -- every admitted timestamp in the T2-window survives the cleanup at `now`
            have hTnow : now ≤ T2 ∧ T2 - now < W := by simpa [inWindow] using hin
            have h1 : A.countP (inWindow W T2) ≤ A.countP (fun t => decide (now - t < W)) := by
              refine countP_le_of_imp A ?_
              intro a _ hwin
              simp only [inWindow, decide_eq_true_eq] at hwin
              simp only [decide_eq_true_eq]
              omega
            have h2 : A.countP (fun t => decide (now - t < W))
                = (rl.cleanup now).requests.length := by
              rw [hclean, List.countP_eq_length_filter]
            have h4 : [now].countP (inWindow W T2) = 1 := by
              simp [List.countP_cons, hin]
            omega
          · have h4 : [now].countP (inWindow W T2) = 0 := by
              simp [List.countP_cons, hin]
            rw [h4]
            simpa using hbound T2
        have hA2le : ∀ t ∈ A ++ [now], t ≤ now := by
          intro t ht
          rcases List.mem_append.mp ht with h | h
          · exact hleA t h
          · simp at h; omega
        intro T
        rw [hrun]
        have h := ih now (A ++ [now])
          ({ rl.cleanup now with requests := (rl.cleanup now).requests ++ [now] } : RateLimiter)
          (by rw [show ({ rl.cleanup now with
              requests := (rl.cleanup now).requests ++ [now] } : RateLimiter).limit
              = rl.limit from rfl]; exact hL)
          (by rw [show ({ rl.cleanup now with
              requests := (rl.cleanup now).requests ++ [now] } : RateLimiter).window
              = rl.window from rfl]; exact hWin)
          hchain2 hA2le hreq2 hbound2 T
        calc (A ++ now :: (({ rl.cleanup now with
                requests := (rl.cleanup now).requests ++ [now] } : RateLimiter).runTrace rest).2).countP
                (inWindow W T)
            = ((A ++ [now]) ++ (({ rl.cleanup now with
                requests := (rl.cleanup now).requests ++ [now] } : RateLimiter).runTrace rest).2).countP
                (inWindow W T) := by rw [List.append_assoc]; rfl
          _ ≤ L := h

/-- C1: for a `RateLimiter` with limit `L` and positive window `W`, and any
sequence of `canMakeRequest`/`recordRequest` calls at non-decreasing clock
times, the admitted timestamps lying in any trailing interval of length `W`
never number more than `L`; moreover `recordRequest` throws exactly when the
pruned window still holds at least `L` timestamps, and after every
successful `recordRequest` the window holds at most `L` timestamps. -/
theorem rateLimiter_sliding_window_bound (L W : Nat) (hW : 0 < W)
    (trace : List (Nat × RLOp))
    (hmono : List.Chain' (· ≤ ·) (trace.map Prod.fst)) :
    (∀ T, ((RateLimiter.mk L W []).runTrace trace).2.countP (inWindow W T) ≤ L)
    ∧ (∀ (rl : RateLimiter) (now : Nat), rl.limit = L →
        (((rl.recordRequest now).2.isSome ↔ L ≤ (rl.cleanup now).requests.length)
         ∧ ((rl.recordRequest now).2 = none →
              (rl.recordRequest now).1.requests.length ≤ L))) := by
  constructor
  · intro T
    have hchain : List.Chain' (· ≤ ·) ((0 : Nat) :: trace.map Prod.fst) := by
      cases htr : trace.map Prod.fst with
      | nil => simp
      | cons a l =>
        rw [List.chain'_cons]
        exact ⟨Nat.zero_le _, by rw [htr] at hmono; exact hmono⟩
    have h := runTrace_window_inv L W hW trace 0 [] (RateLimiter.mk L W [])
      rfl rfl hchain (by simp) (by simp) (by simp) T
    simpa using h
  · intro rl now hL
    constructor
    · by_cases h : rl.limit ≤ (rl.cleanup now).requests.length
      · simp [recordRequest_of_full now rl h]
        omega
      · push_neg at h
        simp [recordRequest_of_room now rl h]
        omega
    · intro hnone
      by_cases h : rl.limit ≤ (rl.cleanup now).requests.length
      · rw [recordRequest_of_full now rl h] at hnone
        simp at hnone
      · push_neg at h
        rw [recordRequest_of_room now rl h]
        simp
        omega

theorem rateLimiter_sliding_window_bound_witness :
    (0 : Nat) < 100 ∧
      ((RateLimiter.mk 2 100 []).runTrace
        [(0, RLOp.record), (1, RLOp.record), (2, RLOp.record)]).2.countP (inWindow 100 5) ≤ 2 :=
  ⟨by decide,
    (rateLimiter_sliding_window_bound 2 100 (by decide)
      [(0, RLOp.record), (1, RLOp.record), (2, RLOp.record)] (by simp [List.chain'_cons])).1 5⟩


/-! ### Theorems: C2 (compound recordRequest is not atomic) -/

theorem recordAllMembers_fail_spec (now : Nat) :
    ∀ l : List (String × RateLimiter),
    (recordAllMembers now l).2.isSome = true →
    ∃ pre p post,
      l = pre ++ p :: post ∧
      (∀ q ∈ pre, ((q.2).recordRequest now).2 = none) ∧
      ((p.2).recordRequest now).2.isSome = true ∧
      (recordAllMembers now l).1
        = pre.map (fun q => (q.1, (q.2.recordRequest now).1))
          ++ (p.1, (p.2.recordRequest now).1) :: post := by
  intro l
  induction l with
  | nil => intro h; simp [recordAllMembers] at h
  | cons hd rest ih =>
    intro h
    obtain ⟨n, rl⟩ := hd
    cases hr : (rl.recordRequest now).2 with
    | some e =>
      refine ⟨[], (n, rl), rest, by simp, by simp, by simp [hr], ?_⟩
      simp [recordAllMembers, hr]
    | none =>
      have hrec : (recordAllMembers now ((n, rl) :: rest))
          = ((n, (rl.recordRequest now).1) :: (recordAllMembers now rest).1,
             (recordAllMembers now rest).2) := by
        simp [recordAllMembers, hr]
      rw [hrec] at h
      simp only at h
      obtain ⟨pre, p, post, hsplit, hpre, hp, hres⟩ := ih h
      refine ⟨(n, rl) :: pre, p, post, by simp [hsplit], ?_, hp, ?_⟩
      · intro q hq
        rcases List.mem_cons.mp hq with h1 | h1
        · subst h1; exact hr
        · exact hpre q h1
      · rw [hrec]
        simp [hres]

/-- C2: counterexample.  A compound limiter with members "a" (limit 1) and
"b" (limit 0): `recordRequest` throws because "b" is full, yet member "a"
has already recorded the timestamp — the call is not atomic, so the claim
that no member is mutated on a failing compound record is false. -/
theorem compound_record_not_atomic_cex :
    ((CompoundRateLimiter.mk
        [("a", RateLimiter.mk 1 1000 []), ("b", RateLimiter.mk 0 1000 [])]).recordRequest 5).2.isSome
      = true
    ∧ ((CompoundRateLimiter.mk
        [("a", RateLimiter.mk 1 1000 []), ("b", RateLimiter.mk 0 1000 [])]).recordRequest 5).1.limiters.head?
      = some ("a", RateLimiter.mk 1 1000 [5]) := by
  constructor
  · rfl
  · rfl

/-- C2 (amended): if any member limiter would fail to record, the whole
compound `recordRequest()` fails with an error, but the call is only
prefix-atomic: the members strictly before the first failing member have
already recorded the timestamp, the failing member keeps its (pruned)
state, and the members after it are untouched. -/
theorem compound_record_partial_apply (now : Nat) (c : CompoundRateLimiter)
    (hfail : (c.recordRequest now).2.isSome = true) :
    ∃ pre p post,
      c.limiters = pre ++ p :: post ∧
      (∀ q ∈ pre, ((q.2).recordRequest now).2 = none) ∧
      ((p.2).recordRequest now).2.isSome = true ∧
      (c.recordRequest now).1.limiters
        = pre.map (fun q => (q.1, (q.2.recordRequest now).1))
          ++ (p.1, (p.2.recordRequest now).1) :: post := by
  by_cases hempty : c.limiters.isEmpty
  · simp [CompoundRateLimiter.recordRequest, hempty] at hfail
  · have hc : c.recordRequest now
        = (⟨(recordAllMembers now c.limiters).1⟩, (recordAllMembers now c.limiters).2) := by
      simp [CompoundRateLimiter.recordRequest, hempty]
    rw [hc] at hfail ⊢
    exact recordAllMembers_fail_spec now c.limiters hfail

theorem compound_record_partial_apply_witness :
    ((CompoundRateLimiter.mk
        [("a", RateLimiter.mk 1 1000 []), ("b", RateLimiter.mk 0 1000 [])]).recordRequest 5).2.isSome
      = true
    ∧ ∃ pre p post,
        (CompoundRateLimiter.mk
          [("a", RateLimiter.mk 1 1000 []), ("b", RateLimiter.mk 0 1000 [])]).limiters
          = pre ++ p :: post ∧
        (∀ q ∈ pre, ((q.2).recordRequest 5).2 = none) ∧
        ((p.2).recordRequest 5).2.isSome = true ∧
        ((CompoundRateLimiter.mk
          [("a", RateLimiter.mk 1 1000 []), ("b", RateLimiter.mk 0 1000 [])]).recordRequest 5).1.limiters
          = pre.map (fun q => (q.1, (q.2.recordRequest 5).1))
            ++ (p.1, (p.2.recordRequest 5).1) :: post :=
  ⟨by rfl, compound_record_partial_apply 5 _ (by rfl)⟩


/-! ### Theorems: C10 (createKey failure conditions) -/

theorem mapParts_error_iff :
    ∀ l : List String,
    (∃ e, mapParts l = Except.error e) ↔ ∃ s ∈ l, s.toLower.trim = "" := by
  intro l
  induction l with
  | nil =>
    simp [mapParts]
  | cons p rest ih =>
    by_cases hp : (p.toLower.trim).isEmpty = true
    · constructor
      · intro _
        exact ⟨p, by simp, (String.isEmpty_iff _).mp hp⟩
      · intro _
        exact ⟨"Cache key parts cannot be empty strings", by simp [mapParts, hp]⟩
    · cases hres : mapParts rest with
      | error e =>
        constructor
        · intro _
          obtain ⟨s, hs, hemp⟩ := ih.mp ⟨e, hres⟩
          exact ⟨s, by simp [hs], hemp⟩
        · intro _
          exact ⟨e, by simp [mapParts, hp, hres]⟩
      | ok rs =>
        constructor
        · intro hex
          obtain ⟨e2, he2⟩ := hex
          simp [mapParts, hp, hres] at he2
        · intro hex
          obtain ⟨s, hs, hemp⟩ := hex
          rcases List.mem_cons.mp hs with h | h
          · subst h
            exact absurd ((String.isEmpty_iff _).mpr hemp) hp
          · obtain ⟨e2, he2⟩ := ih.mpr ⟨s, h, hemp⟩
            rw [he2] at hres
            cases hres

/-- C10: `createKey` throws exactly when every argument is undefined or
null (in particular when there are no arguments), or when some present
argument becomes the empty string after lowercasing and trimming; on all
other inputs it returns a key without failing. -/
theorem createKey_error_iff (parts : List (Option String)) :
    (∃ e, createKey parts = Except.error e) ↔
      ((∀ p ∈ parts, p = none) ∨ ∃ s, some s ∈ parts ∧ s.toLower.trim = "") := by
  by_cases hv : (parts.filterMap id).isEmpty = true
  · have hall : ∀ p ∈ parts, p = none := by
      rw [List.isEmpty_iff] at hv
      intro p hp
      cases p with
      | none => rfl
      | some s =>
        exfalso
        have hmem : s ∈ parts.filterMap id := List.mem_filterMap.mpr ⟨some s, hp, rfl⟩
        rw [hv] at hmem
        simp at hmem
    constructor
    · intro _
      exact Or.inl hall
    · intro _
      exact ⟨"Cache key must have at least one part", by simp [createKey, hv]⟩
  · have hmem : ∀ s : String, s ∈ parts.filterMap id ↔ some s ∈ parts := by
      intro s
      rw [List.mem_filterMap]
      constructor
      · rintro ⟨a, ha, hEq⟩
        cases a with
        | none => simp at hEq
        | some t =>
          simp only [id] at hEq
          exact (Option.some.inj hEq) ▸ ha
      · intro h
        exact ⟨some s, h, rfl⟩
    have hnone : ¬ (∀ p ∈ parts, p = none) := by
      intro hall
      apply hv
      rw [List.isEmpty_iff, List.filterMap_eq_nil_iff]
      intro a ha
      simpa using hall a ha
    cases hres : mapParts (parts.filterMap id) with
    | error e =>
      obtain ⟨s, hs, hemp⟩ := (mapParts_error_iff _).mp ⟨e, hres⟩
      constructor
      · intro _
        exact Or.inr ⟨s, (hmem s).mp hs, hemp⟩
      · intro _
        exact ⟨e, by simp [createKey, hv, hres]⟩
    | ok rs =>
      constructor
      · intro hex
        obtain ⟨e2, he2⟩ := hex
        simp [createKey, hv, hres] at he2
      · intro hor
        cases hor with
        | inl hall => exact absurd hall hnone
        | inr hex =>
          obtain ⟨s, hs, hemp⟩ := hex
          obtain ⟨e2, he2⟩ := (mapParts_error_iff _).mpr ⟨s, (hmem s).mpr hs, hemp⟩
          rw [he2] at hres
          cases hres

/-! ### Theorems: C3 (eviction picks the minimal-score entry) -/

theorem evictFold_spec {V : Type} (now : Nat) :
    ∀ (l : List (String × CacheEntry V)) (k0 : String) (m0 : ℚ),
    ∃ k m,
      l.foldl (fun acc kv =>
          match acc with
          | none => some (kv.1, evictScore now kv.2)
          | some km =>
            if evictScore now kv.2 < km.2 then some (kv.1, evictScore now kv.2) else some km)
        (some (k0, m0)) = some (k, m) ∧
      m ≤ m0 ∧ (∀ p ∈ l, m ≤ evictScore now p.2) ∧
      ((k = k0 ∧ m = m0) ∨ ∃ p ∈ l, k = p.1 ∧ m = evictScore now p.2) := by
  intro l
  induction l with
  | nil =>
    intro k0 m0
    exact ⟨k0, m0, rfl, le_refl _, by simp, Or.inl ⟨rfl, rfl⟩⟩
  | cons x rest ih =>
    intro k0 m0
    by_cases hx : evictScore now x.2 < m0
    · obtain ⟨k, m, hfold, hle, hall, horig⟩ := ih x.1 (evictScore now x.2)
      refine ⟨k, m, ?_, ?_, ?_, ?_⟩
      · rw [List.foldl_cons]
        simpa [hx] using hfold
      · exact le_trans hle (le_of_lt hx)
      · intro p hp
        rcases List.mem_cons.mp hp with h | h
        · rw [h]
          exact hle
        · exact hall p h
      · rcases horig with ⟨hk, hm⟩ | ⟨p, hp, hk, hm⟩
        · exact Or.inr ⟨x, by simp, hk, hm⟩
        · exact Or.inr ⟨p, by simp [hp], hk, hm⟩
    · obtain ⟨k, m, hfold, hle, hall, horig⟩ := ih k0 m0
      refine ⟨k, m, ?_, hle, ?_, ?_⟩
      · rw [List.foldl_cons]
        simpa [hx] using hfold
      · intro p hp
        rcases List.mem_cons.mp hp with h | h
        · rw [h]
          exact le_trans hle (not_lt.mp hx)
        · exact hall p h
      · rcases horig with ⟨hk, hm⟩ | ⟨p, hp, hk, hm⟩
        · exact Or.inl ⟨hk, hm⟩
        · exact Or.inr ⟨p, by simp [hp], hk, hm⟩

theorem evictPick_min {V : Type} (now : Nat) (l : List (String × CacheEntry V)) (hne : l ≠ []) :
    ∃ k e, (k, e) ∈ l ∧ evictPick now l = some k ∧
      ∀ p ∈ l, evictScore now e ≤ evictScore now p.2 := by
  cases l with
  | nil => exact absurd rfl hne
  | cons x rest =>
    obtain ⟨k, m, hfold, hle, hall, horig⟩ := evictFold_spec now rest x.1 (evictScore now x.2)
    have hpick : evictPick now (x :: rest) = some k := by
      simp only [evictPick, List.foldl_cons]
      rw [hfold]
      rfl
    rcases horig with ⟨hk, hm⟩ | ⟨p, hp, hk, hm⟩
    · refine ⟨x.1, x.2, by simp, by rw [hpick, hk], ?_⟩
      intro p hp
      rcases List.mem_cons.mp hp with h | h
      · rw [h]
      · have := hall p h
        rw [hm] at this
        exact this
    · refine ⟨p.1, p.2, by simp [hp], by rw [hpick, hk], ?_⟩
      intro q hq
      rcases List.mem_cons.mp hq with h | h
      · rw [h]
        rw [hm] at hle
        exact hle
      · have := hall q h
        rw [hm] at this
        exact this

theorem evictLoopF_exit {V : Type} (cfg : CacheConfig V) (now size : Nat) :
    ∀ (fuel : Nat) (st st2 : CacheState V),
    evictLoopF cfg now size fuel st = some st2 →
    st2.sizeUsed + size ≤ cfg.maxSize ∨ st2.entries = [] := by
  intro fuel
  induction fuel with
  | zero =>
    intro st st2 h
    by_cases hc : (decide (cfg.maxSize < st.sizeUsed + size) && !st.entries.isEmpty) = true
    · simp [evictLoopF, hc] at h
    · simp [evictLoopF, hc] at h
      subst h
      simp only [Bool.and_eq_true, decide_eq_true_eq, Bool.not_eq_true'] at hc
      by_cases h1 : cfg.maxSize < st.sizeUsed + size
      · right
        rw [← List.isEmpty_iff]
        rcases not_and_or.mp hc with h2 | h2
        · exact absurd h1 h2
        · simpa using h2
      · left
        omega
  | succ fuel ih =>
    intro st st2 h
    by_cases hc : (decide (cfg.maxSize < st.sizeUsed + size) && !st.entries.isEmpty) = true
    · simp only [evictLoopF, hc, if_true] at h
      by_cases hsh : (st.evictLRU now).entries.length < st.entries.length
      · rw [if_pos hsh] at h
        exact ih _ _ h
      · rw [if_neg hsh] at h
        cases h
    · simp only [evictLoopF, hc, if_false] at h
      cases h
      simp only [Bool.and_eq_true, decide_eq_true_eq, Bool.not_eq_true'] at hc
      by_cases h1 : cfg.maxSize < st.sizeUsed + size
      · right
        rw [← List.isEmpty_iff]
        rcases not_and_or.mp hc with h2 | h2
        · exact absurd h1 h2
        · simpa using h2
      · left
        omega

/-- C3: counterexample.  At `now = 2000`, entry "a" (1 hit, age 100 ms) and
entry "b" (3 hits, age 2000 ms): the source evicts "b" (1.5 hits/s beats
10 hits/s), while the spec score `hitCount / max(1, ageSeconds)` with whole
seconds is minimal at "a" (1 < 1.5), so the claimed eviction rule picks the
wrong victim. -/
theorem evictLRU_spec_score_cex :
    evictPick 2000 [("a", (⟨0, 1900, 10, 1, 999999⟩ : CacheEntry Nat)),
                    ("b", (⟨0, 0, 10, 3, 999999⟩ : CacheEntry Nat))] = some "b"
    ∧ specScore 2000 (⟨0, 1900, 10, 1, 999999⟩ : CacheEntry Nat)
        < specScore 2000 (⟨0, 0, 10, 3, 999999⟩ : CacheEntry Nat) := by
  constructor
  · norm_num [evictPick, evictScore, List.foldl_cons, List.foldl_nil]
  · norm_num [specScore]

/-- C3 (amended): when room must be made, each eviction step removes an
entry whose score `hits / (ageMs / 1000)` — fractional seconds, age clamped
below at one millisecond — is minimal over the store (the first such entry
in insertion order; a falsy empty-string victim key is the one exception,
skipping the delete), and the loop in `set` repeats until the new entry
fits or the store is empty. -/
theorem evictLRU_min_score_loop {V : Type} (now : Nat) (st : CacheState V)
    (hne : st.entries ≠ []) :
    (∃ k e, (k, e) ∈ st.entries ∧ evictPick now st.entries = some k ∧
      (∀ p ∈ st.entries, evictScore now e ≤ evictScore now p.2) ∧
      (k ≠ "" → (st.evictLRU now).entries = st.entries.eraseP (fun x => x.1 == k)))
    ∧ (∀ (cfg : CacheConfig V) (size fuel : Nat) (st2 : CacheState V),
        evictLoopF cfg now size fuel st = some st2 →
        st2.sizeUsed + size ≤ cfg.maxSize ∨ st2.entries = []) := by
  constructor
  · obtain ⟨k, e, hmem, hpick, hmin⟩ := evictPick_min now st.entries hne
    refine ⟨k, e, hmem, hpick, hmin, ?_⟩
    intro hk
    have hfind : (st.entries.find? (fun x => x.1 == k)).isSome = true := by
      rw [List.find?_isSome]
      exact ⟨(k, e), hmem, by simp⟩
    simp only [CacheState.evictLRU, hpick, if_neg hk]
    obtain ⟨pr, hpr⟩ := Option.isSome_iff_exists.mp hfind
    simp [CacheState.delete, CacheState.findEntry, hpr]
  · intro cfg size fuel st2 h
    exact evictLoopF_exit cfg now size fuel st st2 h

theorem evictLRU_min_score_loop_witness :
    (([(("a" : String), (⟨0, 1900, 10, 1, 999999⟩ : CacheEntry Nat))] : List (String × CacheEntry Nat)) ≠ [])
    ∧ ((∃ k e, (k, e) ∈ (CacheState.mk [("a", (⟨0, 1900, 10, 1, 999999⟩ : CacheEntry Nat))] 10).entries
          ∧ evictPick 2000 (CacheState.mk [("a", (⟨0, 1900, 10, 1, 999999⟩ : CacheEntry Nat))] 10).entries = some k
          ∧ (∀ p ∈ (CacheState.mk [("a", (⟨0, 1900, 10, 1, 999999⟩ : CacheEntry Nat))] 10).entries,
              evictScore 2000 e ≤ evictScore 2000 p.2)
          ∧ (k ≠ "" → ((CacheState.mk [("a", (⟨0, 1900, 10, 1, 999999⟩ : CacheEntry Nat))] 10).evictLRU 2000).entries
              = (CacheState.mk [("a", (⟨0, 1900, 10, 1, 999999⟩ : CacheEntry Nat))] 10).entries.eraseP (fun x => x.1 == k)))
        ∧ (∀ (cfg : CacheConfig Nat) (size fuel : Nat) (st2 : CacheState Nat),
            evictLoopF cfg 2000 size fuel (CacheState.mk [("a", (⟨0, 1900, 10, 1, 999999⟩ : CacheEntry Nat))] 10) = some st2 →
            st2.sizeUsed + size ≤ cfg.maxSize ∨ st2.entries = [])) :=
  ⟨by simp,
    evictLRU_min_score_loop 2000 (CacheState.mk [("a", (⟨0, 1900, 10, 1, 999999⟩ : CacheEntry Nat))] 10) (by simp)⟩


/-! ### Theorems: C4 (size accounting invariant) -/

theorem keys_nodup_eraseP {V : Type} (p : String × CacheEntry V → Bool)
    (l : List (String × CacheEntry V)) (h : (l.map Prod.fst).Nodup) :
    ((l.eraseP p).map Prod.fst).Nodup :=
  List.Nodup.sublist (List.Sublist.map Prod.fst (List.eraseP_sublist l)) h

theorem find_eraseP_sum {V : Type} (key : String) :
    ∀ (l : List (String × CacheEntry V)) (pr : String × CacheEntry V),
    l.find? (fun x => x.1 == key) = some pr →
    ((l.eraseP (fun x => x.1 == key)).map (fun x => x.2.size)).sum + pr.2.size
        = (l.map (fun x => x.2.size)).sum
    ∧ (l.eraseP (fun x => x.1 == key)).length + 1 = l.length := by
  intro l
  induction l with
  | nil => intro pr h; simp at h
  | cons x rest ih =>
    intro pr h
    by_cases hx : (x.1 == key) = true
    · rw [@List.find?_cons_of_pos _ (fun y => y.1 == key) x rest hx] at h
      cases h
      rw [@List.eraseP_cons_of_pos _ x rest (fun y => y.1 == key) hx]
      constructor
      · simp [Nat.add_comm]
      · simp
    · rw [@List.find?_cons_of_neg _ (fun y => y.1 == key) x rest hx] at h
      obtain ⟨h1, h2⟩ := ih pr h
      rw [@List.eraseP_cons_of_neg _ x rest (fun y => y.1 == key) hx]
      constructor
      · simp only [List.map_cons, List.sum_cons]
        omega
      · simp only [List.length_cons]
        omega

theorem delete_cacheInv {V : Type} (cfg : CacheConfig V) (key : String) (st : CacheState V)
    (h : CacheInv cfg st) :
    CacheInv cfg (st.delete key).2 ∧ (st.delete key).2.sizeUsed ≤ st.sizeUsed := by
  obtain ⟨hnd, hsum, hle⟩ := h
  cases hf : st.findEntry key with
  | none =>
    simp only [CacheState.delete, hf]
    exact ⟨⟨hnd, hsum, hle⟩, le_refl _⟩
  | some e =>
    obtain ⟨pr, hpr, hpre⟩ := Option.map_eq_some'.mp hf
    have hfes := (find_eraseP_sum key st.entries pr hpr).1
    rw [hpre] at hfes
    simp only [CacheState.delete, hf]
    refine ⟨⟨keys_nodup_eraseP _ _ hnd, ?_, ?_⟩, ?_⟩
    · simp only [totalSizeSum] at hsum ⊢
      try dsimp only
      omega
    · simp only [totalSizeSum] at hsum
      try dsimp only
      omega
    · try dsimp only
      exact Nat.sub_le _ _

theorem bumpHits_entries {V : Type} (key : String) (st : CacheState V) :
    ((st.bumpHits key).entries.map Prod.fst = st.entries.map Prod.fst)
    ∧ (totalSizeSum (st.bumpHits key) = totalSizeSum st)
    ∧ (st.bumpHits key).sizeUsed = st.sizeUsed := by
  refine ⟨?_, ?_, rfl⟩
  · simp only [CacheState.bumpHits, List.map_map]
    refine List.map_congr_left ?_
    intro x _
    by_cases hx : x.1 = key <;> simp [hx]
  · simp only [totalSizeSum, CacheState.bumpHits, List.map_map]
    congr 1
    refine List.map_congr_left ?_
    intro x _
    by_cases hx : x.1 = key <;> simp [hx]

theorem bumpHits_cacheInv {V : Type} (cfg : CacheConfig V) (key : String) (st : CacheState V)
    (h : CacheInv cfg st) : CacheInv cfg (st.bumpHits key) := by
  obtain ⟨hk, hs, hu⟩ := bumpHits_entries key st
  obtain ⟨hnd, hsum, hle⟩ := h
  exact ⟨by rw [hk]; exact hnd, by rw [hu, hs]; exact hsum, by rw [hu]; exact hle⟩

theorem get_cacheInv {V : Type} (cfg : CacheConfig V) (now : Nat) (key : String)
    (st : CacheState V) (h : CacheInv cfg st) :
    CacheInv cfg (st.get now key).2 ∧ (st.get now key).2.sizeUsed ≤ st.sizeUsed := by
  cases hf : st.findEntry key with
  | none => simp only [CacheState.get, hf]; exact ⟨h, le_refl _⟩
  | some e =>
    by_cases hexp : e.expiresAt ≤ now
    · simp only [CacheState.get, hf, if_pos hexp]
      exact delete_cacheInv cfg key st h
    · simp only [CacheState.get, hf, if_neg hexp]
      exact ⟨bumpHits_cacheInv cfg key st h, le_of_eq (bumpHits_entries key st).2.2⟩

theorem hasKey_cacheInv {V : Type} (cfg : CacheConfig V) (now : Nat) (key : String)
    (st : CacheState V) (h : CacheInv cfg st) :
    CacheInv cfg (st.hasKey now key).2 ∧ (st.hasKey now key).2.sizeUsed ≤ st.sizeUsed := by
  cases hf : st.findEntry key with
  | none => simp only [CacheState.hasKey, hf]; exact ⟨h, le_refl _⟩
  | some e =>
    by_cases hexp : e.expiresAt ≤ now
    · simp only [CacheState.hasKey, hf, if_pos hexp]
      exact delete_cacheInv cfg key st h
    · simp only [CacheState.hasKey, hf, if_neg hexp]
      exact ⟨h, le_refl _⟩

theorem evictLRU_cacheInv {V : Type} (cfg : CacheConfig V) (now : Nat) (st : CacheState V)
    (h : CacheInv cfg st) :
    CacheInv cfg (st.evictLRU now) ∧ (st.evictLRU now).sizeUsed ≤ st.sizeUsed := by
  cases hpick : evictPick now st.entries with
  | none => simp only [CacheState.evictLRU, hpick]; exact ⟨h, le_refl _⟩
  | some k =>
    by_cases hk : k = ""
    · simp only [CacheState.evictLRU, hpick, if_pos hk]
      exact ⟨h, le_refl _⟩
    · simp only [CacheState.evictLRU, hpick, if_neg hk]
      exact delete_cacheInv cfg k st h

theorem evictLoopF_cacheInv {V : Type} (cfg : CacheConfig V) (now size : Nat) :
    ∀ (fuel : Nat) (st st2 : CacheState V),
    evictLoopF cfg now size fuel st = some st2 → CacheInv cfg st → CacheInv cfg st2 := by
  intro fuel
  induction fuel with
  | zero =>
    intro st st2 h hinv
    by_cases hc : (decide (cfg.maxSize < st.sizeUsed + size) && !st.entries.isEmpty) = true
    · simp [evictLoopF, hc] at h
    · simp [evictLoopF, hc] at h
      exact h ▸ hinv
  | succ fuel ih =>
    intro st st2 h hinv
    by_cases hc : (decide (cfg.maxSize < st.sizeUsed + size) && !st.entries.isEmpty) = true
    · simp only [evictLoopF, hc, if_true] at h
      by_cases hsh : (st.evictLRU now).entries.length < st.entries.length
      · rw [if_pos hsh] at h
        exact ih _ _ h (evictLRU_cacheInv cfg now st hinv).1
      · rw [if_neg hsh] at h
        cases h
    · simp only [evictLoopF, hc, if_false] at h
      cases h
      exact hinv

theorem key_not_mem_eraseP {V : Type} (key : String) :
    ∀ l : List (String × CacheEntry V), (l.map Prod.fst).Nodup →
    key ∉ ((l.eraseP (fun x => x.1 == key)).map Prod.fst) := by
  intro l
  induction l with
  | nil => intro _; simp
  | cons x rest ih =>
    intro hnd
    simp only [List.map_cons, List.nodup_cons] at hnd
    by_cases hx : (x.1 == key) = true
    · rw [@List.eraseP_cons_of_pos _ x rest (fun y => y.1 == key) hx]
      have hkey : x.1 = key := by simpa using hx
      rw [← hkey]
      exact hnd.1
    · rw [@List.eraseP_cons_of_neg _ x rest (fun y => y.1 == key) hx]
      have hne : ¬ x.1 = key := by simpa using hx
      simp only [List.map_cons, List.mem_cons]
      rintro (h | h)
      · exact hne h.symm
      · exact ih hnd.2 h

theorem key_not_mem_of_find_none {V : Type} (key : String) (l : List (String × CacheEntry V))
    (h : l.find? (fun x => x.1 == key) = none) : key ∉ l.map Prod.fst := by
  intro hmem
  obtain ⟨x, hx, hfst⟩ := List.mem_map.mp hmem
  have := List.find?_eq_none.mp h x hx
  simp [hfst] at this

/-- After the `has`-then-`delete` dance in `set`, the state is `delete` if
the key was stored (expired or not) and unchanged otherwise. -/
theorem removal_state {V : Type} (now : Nat) (key : String) (st : CacheState V) :
    (if (st.hasKey now key).1 then (((st.hasKey now key).2).delete key).2
     else (st.hasKey now key).2)
      = if (st.findEntry key).isSome then (st.delete key).2 else st := by
  cases hf : st.findEntry key with
  | none => simp [CacheState.hasKey, hf]
  | some e =>
    by_cases hexp : e.expiresAt ≤ now
    · simp [CacheState.hasKey, hf, if_pos hexp]
    · simp [CacheState.hasKey, hf, if_neg hexp]

theorem removed_key_absent {V : Type} (key : String) (st : CacheState V)
    (hnd : (st.entries.map Prod.fst).Nodup) :
    key ∉ ((if (st.findEntry key).isSome then (st.delete key).2 else st).entries.map Prod.fst) := by
  cases hf : st.findEntry key with
  | none =>
    simp only [hf, Option.isSome_none, Bool.false_eq_true, if_false]
    exact key_not_mem_of_find_none key st.entries (Option.map_eq_none'.mp hf)
  | some e =>
    simp only [hf, Option.isSome_some, if_true]
    obtain ⟨pr, hpr, _⟩ := Option.map_eq_some'.mp hf
    simp only [CacheState.delete, hf]
    exact key_not_mem_eraseP key st.entries hnd

theorem removed_state_cacheInv {V : Type} (cfg : CacheConfig V) (key : String)
    (st : CacheState V) (h : CacheInv cfg st) :
    CacheInv cfg (if (st.findEntry key).isSome then (st.delete key).2 else st)
    ∧ (if (st.findEntry key).isSome then (st.delete key).2 else st).sizeUsed ≤ st.sizeUsed := by
  cases hf : st.findEntry key with
  | none => simp only [hf, Option.isSome_none, Bool.false_eq_true, if_false]; exact ⟨h, le_refl _⟩
  | some e =>
    simp only [hf, Option.isSome_some, if_true]
    exact delete_cacheInv cfg key st h

theorem set_cacheInv {V : Type} (cfg : CacheConfig V) (now : Nat) (key : String) (data : V)
    (ttl : Option Nat) (st st2 : CacheState V) (h : CacheInv cfg st)
    (hset : CacheState.set cfg now key data ttl st = some st2) : CacheInv cfg st2 := by
  simp only [CacheState.set] at hset
  by_cases hsz : cfg.maxSize < cfg.estimateSize data
  · rw [if_pos hsz] at hset
    cases hset
    exact h
  · rw [if_neg hsz] at hset
    cases hloop : evictLoopF cfg now (cfg.estimateSize data) st.entries.length st with
    | none => rw [hloop] at hset; cases hset
    | some stE =>
      rw [hloop] at hset
      dsimp only at hset
      have hInvE := evictLoopF_cacheInv cfg now (cfg.estimateSize data)
        st.entries.length st stE hloop h
      have hexit := evictLoopF_exit cfg now (cfg.estimateSize data)
        st.entries.length st stE hloop
      rw [removal_state now key stE] at hset
      have habs := removed_key_absent key stE hInvE.1
      obtain ⟨hInv3, hle3⟩ := removed_state_cacheInv cfg key stE hInvE
      simp only [Option.some.injEq] at hset
      subst hset
      obtain ⟨hnd3, hsum3, hle3b⟩ := hInv3
      simp only [totalSizeSum] at hsum3
      refine ⟨?_, ?_, ?_⟩
      · simp only [List.map_append, List.map_cons, List.map_nil]
        rw [List.nodup_append]
        refine ⟨hnd3, List.nodup_singleton _, ?_⟩
        intro a ha hb
        simp only [List.mem_singleton] at hb
        subst hb
        exact habs ha
      · simp only [totalSizeSum, List.map_append, List.sum_append, List.map_cons,
          List.map_nil, List.sum_cons, List.sum_nil]
        try dsimp only
        omega
      · try dsimp only
        rcases hexit with hfit | hempty
        · omega
        · have hE0 : stE.sizeUsed = 0 := by
            obtain ⟨_, hsumE, _⟩ := hInvE
            rw [hsumE]
            simp [totalSizeSum, hempty]
          omega

theorem foldl_delete_cacheInv {V : Type} (cfg : CacheConfig V) :
    ∀ (ks : List String) (st : CacheState V), CacheInv cfg st →
    CacheInv cfg (ks.foldl (fun s k => (s.delete k).2) st) := by
  intro ks
  induction ks with
  | nil => intro st h; exact h
  | cons k rest ih =>
    intro st h
    exact ih _ (delete_cacheInv cfg k st h).1

theorem sweep_cacheInv {V : Type} (cfg : CacheConfig V) (now : Nat) (st : CacheState V)
    (h : CacheInv cfg st) : CacheInv cfg (st.sweep now) :=
  foldl_delete_cacheInv cfg _ st h

theorem runCache_cacheInv {V : Type} (cfg : CacheConfig V) :
    ∀ (ops : List (Nat × CacheOp V)) (st0 st : CacheState V),
    runCache cfg st0 ops = some st → CacheInv cfg st0 → CacheInv cfg st := by
  intro ops
  induction ops with
  | nil =>
    intro st0 st h hinv
    simp only [runCache, Option.some.injEq] at h
    exact h ▸ hinv
  | cons op rest ih =>
    intro st0 st h hinv
    obtain ⟨now, o⟩ := op
    cases o with
    | get key =>
      exact ih _ _ h (get_cacheInv cfg now key st0 hinv).1
    | set key data ttl =>
      simp only [runCache] at h
      cases hs : CacheState.set cfg now key data ttl st0 with
      | none => rw [hs] at h; cases h
      | some stN =>
        rw [hs] at h
        exact ih _ _ h (set_cacheInv cfg now key data ttl st0 stN hinv hs)
    | has key =>
      exact ih _ _ h (hasKey_cacheInv cfg now key st0 hinv).1
    | del key =>
      exact ih _ _ h (delete_cacheInv cfg key st0 hinv).1
    | clear =>
      exact ih _ _ h ⟨by simp [CacheState.clearAll], rfl, Nat.zero_le _⟩
    | sweep =>
      exact ih _ _ h (sweep_cacheInv cfg now st0 hinv)

/-- C4: counterexample.  One `set` with TTL 100 at time 0, observed at time
200: the entry has expired but has not been removed, so `sizeUsed` (= 4)
still counts it while the sum over live entries (`expiresAt > now`) is 0 —
`sizeUsed` does not equal the live-entry sum. -/
theorem cache_sizeUsed_live_sum_cex :
    (runCache (⟨10, 300, fun v => v⟩ : CacheConfig Nat) ⟨[], 0⟩
        [(0, CacheOp.set "k" 4 (some 100))]).map
      (fun st => (st.sizeUsed, liveSizeSum 200 st)) = some (4, 0) := by
  rfl

/-- C4 (amended): after any completed sequence of cache operations starting
from the empty cache, `sizeUsed` equals the sum of the estimated sizes of
all stored entries — including expired entries that have not yet been
removed by a lazy check or a sweep — and `sizeUsed` never exceeds the
configured `maxSize`. -/
theorem cache_sizeUsed_total_and_bound {V : Type} (cfg : CacheConfig V)
    (ops : List (Nat × CacheOp V)) (st : CacheState V)
    (h : runCache cfg ⟨[], 0⟩ ops = some st) :
    st.sizeUsed = totalSizeSum st ∧ st.sizeUsed ≤ cfg.maxSize := by
  have hinv := runCache_cacheInv cfg ops ⟨[], 0⟩ st h ⟨by simp, rfl, Nat.zero_le _⟩
  exact ⟨hinv.2.1, hinv.2.2⟩

theorem cache_sizeUsed_total_and_bound_witness :
    (runCache (⟨10, 300, fun v => v⟩ : CacheConfig Nat) ⟨[], 0⟩
        [(0, CacheOp.set "k" 4 (some 100)), (50, CacheOp.get "k")]
      = some ⟨[("k", ⟨4, 0, 4, 1, 100⟩)], 4⟩)
    ∧ (⟨[("k", ⟨4, 0, 4, 1, 100⟩)], 4⟩ : CacheState Nat).sizeUsed
        = totalSizeSum (⟨[("k", ⟨4, 0, 4, 1, 100⟩)], 4⟩ : CacheState Nat)
    ∧ (⟨[("k", ⟨4, 0, 4, 1, 100⟩)], 4⟩ : CacheState Nat).sizeUsed ≤
        (⟨10, 300, fun v => v⟩ : CacheConfig Nat).maxSize :=
  ⟨by rfl,
    cache_sizeUsed_total_and_bound (⟨10, 300, fun v => v⟩ : CacheConfig Nat)
      [(0, CacheOp.set "k" 4 (some 100)), (50, CacheOp.get "k")]
      ⟨[("k", ⟨4, 0, 4, 1, 100⟩)], 4⟩ (by rfl)⟩

/-! ### Theorems: C8 (set/get round trip) -/

theorem find?_append_left_none {α : Type} (p : α → Bool) :
    ∀ l1 l2 : List α, l1.find? p = none → (l1 ++ l2).find? p = l2.find? p := by
  intro l1
  induction l1 with
  | nil => intro l2 _; simp
  | cons x rest ih =>
    intro l2 h
    by_cases hx : p x = true
    · rw [List.find?_cons_of_pos _ hx] at h
      cases h
    · rw [List.find?_cons_of_neg _ hx] at h
      rw [List.cons_append, List.find?_cons_of_neg _ hx]
      exact ih l2 h

/-- C8: counterexample.  With capacity 10, `set("k", v)` for a value of
estimated size 100 with a positive explicit TTL is skipped outright, and
the immediately following `get("k")` returns absent instead of the value. -/
theorem cache_roundtrip_oversize_cex :
    (CacheState.set (⟨10, 300, fun v => v⟩ : CacheConfig Nat) 0 "k" 100 (some 50) ⟨[], 0⟩)
      = some ⟨[], 0⟩
    ∧ ((⟨[], 0⟩ : CacheState Nat).get 0 "k").1 = none := ⟨rfl, rfl⟩

/-- C8 (amended): for a value whose estimated size fits the capacity, on a
well-formed cache state, a completed `set(k, v, ttl)` with positive
explicit `ttl` stores an entry that any later `get(k)` strictly before
`storedAt + ttl` returns as `v`, while any `get(k)` at or after
`storedAt + ttl` returns absent and removes the entry from the store. -/
theorem cache_set_get_roundtrip {V : Type} (cfg : CacheConfig V) (now : Nat) (key : String)
    (v : V) (ttl : Nat) (st st2 : CacheState V)
    (hinv : CacheInv cfg st)
    (hsz : cfg.estimateSize v ≤ cfg.maxSize)
    (httl : 0 < ttl)
    (hset : CacheState.set cfg now key v (some ttl) st = some st2) :
    (∀ t, t < now + ttl → (st2.get t key).1 = some v)
    ∧ (∀ t, now + ttl ≤ t →
        (st2.get t key).1 = none ∧ ((st2.get t key).2).findEntry key = none) := by
  simp only [CacheState.set] at hset
  rw [if_neg (by omega)] at hset
  cases hloop : evictLoopF cfg now (cfg.estimateSize v) st.entries.length st with
  | none => rw [hloop] at hset; cases hset
  | some stE =>
    rw [hloop] at hset
    dsimp only at hset
    have hInvE := evictLoopF_cacheInv cfg now (cfg.estimateSize v)
      st.entries.length st stE hloop hinv
    rw [removal_state now key stE] at hset
    have habs := removed_key_absent key stE hInvE.1
    simp only [Option.some.injEq] at hset
    have httlres : resolveTTL cfg.defaultTTL (some ttl) key = ttl := by
      simp [resolveTTL, httl]
    rw [httlres] at hset
    subst hset
    set st3 := if (stE.findEntry key).isSome then (stE.delete key).2 else stE with hst3
    have hfind3 : st3.entries.find? (fun x => x.1 == key) = none := by
      rw [List.find?_eq_none]
      intro x hx
      intro hbeq
      apply habs
      have hxk : x.1 = key := by simpa using hbeq
      rw [← hxk]
      exact List.mem_map.mpr ⟨x, hx, rfl⟩
    have hfind2 : (st3.entries
          ++ [(key, (⟨v, now, cfg.estimateSize v, 0, now + ttl⟩ : CacheEntry V))]).find?
          (fun x => x.1 == key)
        = some (key, (⟨v, now, cfg.estimateSize v, 0, now + ttl⟩ : CacheEntry V)) := by
      rw [find?_append_left_none _ _ _ hfind3]
      simp
    constructor
    · intro t ht
      simp only [CacheState.get, CacheState.findEntry, hfind2, Option.map_some']
      rw [if_neg (by omega)]
    · intro t ht
      simp only [CacheState.get, CacheState.findEntry, hfind2, Option.map_some']
      rw [if_pos (by omega)]
      refine ⟨rfl, ?_⟩
      simp only [CacheState.delete, CacheState.findEntry, hfind2, Option.map_some']
      have herase : ((st3.entries
            ++ [(key, (⟨v, now, cfg.estimateSize v, 0, now + ttl⟩ : CacheEntry V))]).eraseP
            (fun x => x.1 == key))
          = st3.entries := by
        rw [List.eraseP_append_right _ (List.find?_eq_none.mp hfind3)]
        simp [List.eraseP_cons_of_pos]
      simp only [herase]
      simp only [CacheState.findEntry] at hfind3 ⊢
      rw [hfind3]
      rfl

theorem cache_set_get_roundtrip_witness :
    (CacheState.set (⟨10, 300, fun v => v⟩ : CacheConfig Nat) 0 "k" 4 (some 50) ⟨[], 0⟩
        = some ⟨[("k", ⟨4, 0, 4, 0, 50⟩)], 4⟩)
    ∧ (((⟨[("k", ⟨4, 0, 4, 0, 50⟩)], 4⟩ : CacheState Nat).get 30 "k").1 = some 4)
    ∧ (((⟨[("k", ⟨4, 0, 4, 0, 50⟩)], 4⟩ : CacheState Nat).get 50 "k").1 = none) :=
  ⟨by rfl,
    (cache_set_get_roundtrip (⟨10, 300, fun v => v⟩ : CacheConfig Nat) 0 "k" 4 50
      ⟨[], 0⟩ ⟨[("k", ⟨4, 0, 4, 0, 50⟩)], 4⟩ ⟨by simp, rfl, by simp⟩ (by decide) (by decide)
      (by rfl)).1 30 (by decide),
    ((cache_set_get_roundtrip (⟨10, 300, fun v => v⟩ : CacheConfig Nat) 0 "k" 4 50
      ⟨[], 0⟩ ⟨[("k", ⟨4, 0, 4, 0, 50⟩)], 4⟩ ⟨by simp, rfl, by simp⟩ (by decide) (by decide)
      (by rfl)).2 50 (by decide)).1⟩


/-! ### Theorems: C5 (getAccessToken contract) -/

theorem validateTokenResponse_ok_nonempty (raw : RawTokenResponse) (data : TokenResponse)
    (h : validateTokenResponse raw = Except.ok data) : data.access_token ≠ "" := by
  obtain ⟨a, t, e, sc⟩ := raw
  cases a with
  | none => simp [validateTokenResponse] at h
  | some a =>
    cases t with
    | none => simp [validateTokenResponse] at h
    | some t =>
      cases e with
      | none => simp [validateTokenResponse] at h
      | some e =>
        cases sc with
        | none => simp [validateTokenResponse] at h
        | some sc =>
          simp only [validateTokenResponse] at h
          by_cases h1 : a = ""
          · simp [h1] at h
          · by_cases h2 : t = ""
            · simp [h1, h2] at h
            · by_cases h3 : e ≤ 0
              · simp [h1, h2, h3] at h
              · simp only [h1, h2, h3, if_false, Except.ok.injEq] at h
                subst h
                simpa using h1

theorem doRefresh_ok_token (now : Int) (d : String) (f : Except String RawTokenResponse)
    (cfg : AuthConfig)
    (h : (doRefreshAccessToken now d f cfg).2 = Except.ok ()) :
    ∃ a, (doRefreshAccessToken now d f cfg).1.accessToken = some a ∧ a ≠ "" := by
  by_cases hc : (cfg.clientId == "") = true
  · simp [doRefreshAccessToken, hc] at h
  · cases hd : cfg.deviceId with
    | none =>
      cases f with
      | error e => simp [doRefreshAccessToken, hc, hd] at h
      | ok raw =>
        cases hv : validateTokenResponse raw with
        | error e2 => simp [doRefreshAccessToken, hc, hd, hv] at h
        | ok data =>
          refine ⟨data.access_token, ?_, validateTokenResponse_ok_nonempty raw data hv⟩
          simp [doRefreshAccessToken, hc, hd, hv]
    | some dev =>
      cases f with
      | error e => simp [doRefreshAccessToken, hc, hd] at h
      | ok raw =>
        cases hv : validateTokenResponse raw with
        | error e2 => simp [doRefreshAccessToken, hc, hd, hv] at h
        | ok data =>
          refine ⟨data.access_token, ?_, validateTokenResponse_ok_nonempty raw data hv⟩
          simp [doRefreshAccessToken, hc, hd, hv]

/-- C5: counterexample.  With no credential configuration loaded,
`getAccessToken()` completes successfully with an absent (null) token
instead of failing — the unauthenticated fallback deliberately returns
null. -/
theorem getAccessToken_null_config_cex :
    (getAccessToken 0 "d" (Except.error "network down") none).1 = Except.ok none := rfl

/-- C5 (amended): whenever a credential configuration is loaded, every
`getAccessToken()` call either fails or returns a present, non-empty
access token; only the no-configuration state completes successfully with
null. -/
theorem getAccessToken_token_or_error (now : Int) (d : String)
    (f : Except String RawTokenResponse) (cfg : AuthConfig) :
    (∃ e, (getAccessToken now d f (some cfg)).1 = Except.error e)
    ∨ (∃ t, (getAccessToken now d f (some cfg)).1 = Except.ok (some t) ∧ t ≠ "") := by
  by_cases hr : (tokenFalsy cfg.accessToken || isTokenExpired now cfg) = true
  · cases hres : (doRefreshAccessToken now d f cfg).2 with
    | error e =>
      left
      refine ⟨e, ?_⟩
      simp only [getAccessToken, hr, if_true]
      rw [hres]
    | ok u =>
      cases u
      obtain ⟨a, ha, hane⟩ := doRefresh_ok_token now d f cfg hres
      right
      refine ⟨a, ?_, hane⟩
      simp only [getAccessToken, hr, if_true]
      rw [hres]
      simp [jsTokenOrNull, ha, hane]
  · have hr2 : (tokenFalsy cfg.accessToken || isTokenExpired now cfg) = false := by
      simpa using hr
    have hfal : tokenFalsy cfg.accessToken = false := by
      rcases Bool.or_eq_false_iff.mp hr2 with ⟨hx, _⟩
      exact hx
    cases hat : cfg.accessToken with
    | none => rw [hat] at hfal; simp [tokenFalsy] at hfal
    | some t =>
      rw [hat] at hfal
      have htne : ¬ t = "" := by simpa [tokenFalsy] using hfal
      right
      refine ⟨t, ?_, htne⟩
      rw [hat] at hr2
      have hnot : ¬ ((tokenFalsy (some t) || isTokenExpired now cfg) = true) := by
        simp [hr2]
      simp only [getAccessToken, hat]
      rw [if_neg hnot]
      simp [jsTokenOrNull, htne]

/-! ### Theorems: C6 (backoff monotone below the ceiling) -/

theorem jsRound_le_of_le (x : ℚ) (n : Int) (h : x ≤ (n : ℚ)) : jsRound x ≤ n := by
  have h2 : ⌊x + 1 / 2⌋ < n + 1 := by
    apply Int.floor_lt.mpr
    push_cast
    linarith
  simp only [jsRound]
  omega

theorem le_jsRound_of_le (x : ℚ) (n : Int) (h : (n : ℚ) ≤ x) : n ≤ jsRound x := by
  simp only [jsRound]
  apply Int.le_floor.mpr
  linarith

theorem calculateBackoff_closed_form (r : ℚ) (h0 : 0 ≤ r) :
    calculateBackoff 2 r = jsRound (80 + 40 * r)
    ∧ calculateBackoff 1 r = jsRound (160 + 80 * r) := by
  constructor
  · simp only [calculateBackoff, INITIAL_BACKOFF_MS, BACKOFF_MULTIPLIER, MAX_BACKOFF_MS]
    norm_num
    congr 1
    rw [max_eq_right (by linarith)]
    ring
  · simp only [calculateBackoff, INITIAL_BACKOFF_MS, BACKOFF_MULTIPLIER, MAX_BACKOFF_MS]
    norm_num
    congr 1
    rw [max_eq_right (by linarith)]
    ring

/-- C6: within one dispatch (default budget of 2 retries, so
`calculateBackoff` runs at `retriesLeft = 2` and then `retriesLeft = 1`),
the successive backoff delays are non-decreasing for every pair of jitter
draws in the ±20% range, and no computed delay ever exceeds the
`MAX_BACKOFF_MS` ceiling. -/
theorem backoff_monotone_and_capped (r1 r2 : ℚ)
    (h1a : 0 ≤ r1) (h1b : r1 ≤ 1) (h2a : 0 ≤ r2) (h2b : r2 ≤ 1) :
    calculateBackoff 2 r1 ≤ calculateBackoff 1 r2
    ∧ (calculateBackoff 2 r1 : ℚ) ≤ MAX_BACKOFF_MS
    ∧ (calculateBackoff 1 r2 : ℚ) ≤ MAX_BACKOFF_MS := by
  obtain ⟨e1, _⟩ := calculateBackoff_closed_form r1 h1a
  obtain ⟨_, e2⟩ := calculateBackoff_closed_form r2 h2a
  have hb1 : calculateBackoff 2 r1 ≤ 120 := by
    rw [e1]
    apply jsRound_le_of_le
    have hcast : ((120 : Int) : ℚ) = 120 := by norm_num
    rw [hcast]
    linarith
  have hb2 : (160 : Int) ≤ calculateBackoff 1 r2 := by
    rw [e2]
    apply le_jsRound_of_le
    have hcast : ((160 : Int) : ℚ) = 160 := by norm_num
    rw [hcast]
    linarith
  have hb3 : calculateBackoff 1 r2 ≤ 240 := by
    rw [e2]
    apply jsRound_le_of_le
    have hcast : ((240 : Int) : ℚ) = 240 := by norm_num
    rw [hcast]
    linarith
  refine ⟨by omega, ?_, ?_⟩
  · have hc : (calculateBackoff 2 r1 : ℚ) ≤ (120 : ℚ) := by exact_mod_cast hb1
    rw [MAX_BACKOFF_MS]
    linarith
  · have hc : (calculateBackoff 1 r2 : ℚ) ≤ (240 : ℚ) := by exact_mod_cast hb3
    rw [MAX_BACKOFF_MS]
    linarith

theorem backoff_monotone_and_capped_witness :
    ((0 : ℚ) ≤ 0 ∧ (0 : ℚ) ≤ 1 ∧ (0 : ℚ) ≤ 1 ∧ (1 : ℚ) ≤ 1)
    ∧ (calculateBackoff 2 0 ≤ calculateBackoff 1 1
       ∧ (calculateBackoff 2 0 : ℚ) ≤ MAX_BACKOFF_MS
       ∧ (calculateBackoff 1 1 : ℚ) ≤ MAX_BACKOFF_MS) :=
  ⟨⟨le_refl 0, by norm_num, by norm_num, le_refl 1⟩,
    backoff_monotone_and_capped 0 1 (le_refl 0) (by norm_num) (by norm_num) (le_refl 1)⟩

/-! ### Theorems: C7 (404/403/HTML are fatal with no retry) -/

/-- C7: a 404 response, a 403 response, or an ok response carrying an
HTML/XHTML content type ends the request immediately with the matching
classification — exactly one network call is made, with no retry and no
backoff — regardless of the remaining retry budget, the auth state, the
refresh oracle and any further network events. -/
theorem fatal_statuses_no_retry (refreshOk isAuth : Bool) (retries : Nat)
    (r : HttpResponse) (rest : List FetchEvent) :
    (r.status = 404 →
      getImplRun refreshOk isAuth retries (.resp r :: rest)
        = (Except.error ApiFailure.notFound, 1))
    ∧ (r.status = 403 →
      getImplRun refreshOk isAuth retries (.resp r :: rest)
        = (Except.error ApiFailure.forbidden, 1))
    ∧ (responseOk r.status = true → isHtmlContentType r.contentType = true →
      getImplRun refreshOk isAuth retries (.resp r :: rest)
        = (Except.error ApiFailure.htmlResponse, 1)) := by
  refine ⟨?_, ?_, ?_⟩
  · intro h
    have hclass : classifyAttempt isAuth retries (.resp r) = .fatal .notFound := by
      simp [classifyAttempt, h, responseOk]
    simp [getImplRun, hclass]
  · intro h
    have hclass : classifyAttempt isAuth retries (.resp r) = .fatal .forbidden := by
      simp [classifyAttempt, h, responseOk]
    simp [getImplRun, hclass]
  · intro hok hhtml
    have hrange : 200 ≤ r.status ∧ r.status < 300 := by
      simpa [responseOk] using hok
    have h401 : (r.status == 401) = false := by
      simp only [beq_eq_false_iff_ne, ne_eq]
      omega
    have hclass : classifyAttempt isAuth retries (.resp r) = .fatal .htmlResponse := by
      simp [classifyAttempt, h401, hok, hhtml]
    simp [getImplRun, hclass]

theorem fatal_statuses_no_retry_witness :
    ((⟨404, none⟩ : HttpResponse).status = 404
      ∧ getImplRun true true 2 (.resp ⟨404, none⟩ :: [.resp ⟨200, none⟩])
          = (Except.error ApiFailure.notFound, 1))
    ∧ ((⟨403, none⟩ : HttpResponse).status = 403
      ∧ getImplRun true true 2 (.resp ⟨403, none⟩ :: [])
          = (Except.error ApiFailure.forbidden, 1))
    ∧ (responseOk 200 = true
      ∧ isHtmlContentType (some "TEXT/HTML; charset=utf-8") = true
      ∧ getImplRun true true 2 (.resp ⟨200, some "TEXT/HTML; charset=utf-8"⟩ :: [])
          = (Except.error ApiFailure.htmlResponse, 1)) :=
  ⟨⟨rfl, (fatal_statuses_no_retry true true 2 ⟨404, none⟩ [.resp ⟨200, none⟩]).1 rfl⟩,
   ⟨rfl, (fatal_statuses_no_retry true true 2 ⟨403, none⟩ []).2.1 rfl⟩,
   ⟨by decide, by decide,
    (fatal_statuses_no_retry true true 2 ⟨200, some "TEXT/HTML; charset=utf-8"⟩ []).2.2
      (by decide) (by decide)⟩⟩

/-! ### Theorems: C9 (single-flight token refresh) -/

theorem arrive_fold_spec :
    ∀ (rest : List Nat) (s : SingleFlight) (rid : Nat), s.inFlight = some rid →
    ((rest.foldl (fun s c => arrive c s) s).inFlight = some rid
     ∧ (rest.foldl (fun s c => arrive c s) s).networkCalls = s.networkCalls
     ∧ (rest.foldl (fun s c => arrive c s) s).waiters
         = s.waiters ++ rest.map (fun c => (c, rid))) := by
  intro rest
  induction rest with
  | nil =>
    intro s rid h
    exact ⟨h, rfl, by simp⟩
  | cons c cs ih =>
    intro s rid h
    have harr : arrive c s = { s with waiters := s.waiters ++ [(c, rid)] } := by
      simp [arrive, h]
    simp only [List.foldl_cons]
    obtain ⟨h1, h2, h3⟩ := ih (arrive c s) rid (by rw [harr]; exact h)
    refine ⟨h1, ?_, ?_⟩
    · rw [h2, harr]
    · rw [h3, harr]
      simp

/-- C9: any number N ≥ 1 of callers that reach the refresh branch of
`getAccessToken()` while no refresh is in flight trigger exactly one
token-endpoint call — later arrivals join the refresh already underway —
and when that refresh settles, with a token or with a failure, every one
of the N callers observes the same outcome and the in-flight marker is
cleared. -/
theorem single_flight_refresh (callers : List Nat) (hne : callers ≠ [])
    (outcome : Except String String) :
    ((callers.foldl (fun s c => arrive c s) idleFlight).networkCalls = 1)
    ∧ ((settle outcome (callers.foldl (fun s c => arrive c s) idleFlight)).1.inFlight = none)
    ∧ ((settle outcome (callers.foldl (fun s c => arrive c s) idleFlight)).2.map Prod.fst
        = callers)
    ∧ (∀ w ∈ (settle outcome (callers.foldl (fun s c => arrive c s) idleFlight)).2,
        w.2 = outcome) := by
  cases callers with
  | nil => exact absurd rfl hne
  | cons c cs =>
    have harr : arrive c idleFlight = ⟨some 0, 1, [(c, 0)], 1⟩ := by
      simp [arrive, idleFlight]
    simp only [List.foldl_cons, harr]
    obtain ⟨h1, h2, h3⟩ := arrive_fold_spec cs (⟨some 0, 1, [(c, 0)], 1⟩ : SingleFlight) 0 rfl
    have hw : (cs.foldl (fun s c => arrive c s) (⟨some 0, 1, [(c, 0)], 1⟩ : SingleFlight)).waiters
        = (c, 0) :: cs.map (fun c => (c, 0)) := by
      rw [h3]
      rfl
    have hfil : ∀ l : List Nat,
        ((l.map (fun c => (c, (0 : Nat)))).filter (fun w => w.2 == 0))
          = l.map (fun c => (c, 0)) := by
      intro l
      apply List.filter_eq_self.mpr
      intro a ha
      obtain ⟨b, _, hb⟩ := List.mem_map.mp ha
      rw [← hb]
      simp
    have hsettle : settle outcome
          (cs.foldl (fun s c => arrive c s) (⟨some 0, 1, [(c, 0)], 1⟩ : SingleFlight))
        = ({ cs.foldl (fun s c => arrive c s) (⟨some 0, 1, [(c, 0)], 1⟩ : SingleFlight) with
              inFlight := none,
              waiters := ((c, 0) :: cs.map (fun c => (c, 0))).filter (fun w => !(w.2 == 0)) },
           (((c, 0) :: cs.map (fun c => (c, 0))).filter (fun w => w.2 == 0)).map
             (fun w => (w.1, outcome))) := by
      simp only [settle, h1, hw]
    refine ⟨h2, ?_, ?_, ?_⟩
    · rw [hsettle]
    · rw [hsettle]
      dsimp only
      have hpc : (((c, 0) :: cs.map (fun c => (c, 0))).filter (fun w => w.2 == 0))
          = (c, 0) :: cs.map (fun c => (c, 0)) := by
        rw [List.filter_cons]
        simp [hfil]
      rw [hpc]
      simp only [List.map_cons, List.map_map]
      have hid : (Prod.fst ∘ (fun w : Nat × Nat => (w.1, outcome))
          ∘ fun c : Nat => (c, (0 : Nat))) = id := by
        funext x
        rfl
      rw [hid, List.map_id]
    · intro w hwmem
      rw [hsettle] at hwmem
      simp only at hwmem
      obtain ⟨x, _, hx⟩ := List.mem_map.mp hwmem
      rw [← hx]

theorem single_flight_refresh_witness :
    (([7, 8] : List Nat) ≠ [])
    ∧ ((([7, 8] : List Nat).foldl (fun s c => arrive c s) idleFlight).networkCalls = 1)
    ∧ ((settle (Except.ok "tok")
          (([7, 8] : List Nat).foldl (fun s c => arrive c s) idleFlight)).1.inFlight = none)
    ∧ ((settle (Except.ok "tok")
          (([7, 8] : List Nat).foldl (fun s c => arrive c s) idleFlight)).2.map Prod.fst
        = [7, 8])
    ∧ (∀ w ∈ (settle (Except.ok "tok")
          (([7, 8] : List Nat).foldl (fun s c => arrive c s) idleFlight)).2,
        w.2 = Except.ok "tok") :=
  ⟨by simp,
    (single_flight_refresh [7, 8] (by simp) (Except.ok "tok")).1,
    (single_flight_refresh [7, 8] (by simp) (Except.ok "tok")).2.1,
    (single_flight_refresh [7, 8] (by simp) (Except.ok "tok")).2.2.1,
    (single_flight_refresh [7, 8] (by simp) (Except.ok "tok")).2.2.2⟩

end Leelo
